import Mathlib

/-!
Verification of the invbt balance-simulation engine (`src/utils.py`).

Modelling conventions used throughout this development:

* An IEEE-754 double is idealized as an exact rational number when it is
  finite; the value `none : Option ℚ` stands for any non-finite float
  (NaN or an infinity).  Rounding error and overflow of the float format
  are out of scope: arithmetic on finite values is exact.
* pandas reductions (`Series.sum`, `DataFrame.sum`, `cumsum`) skip NaN
  entries (their default `skipna=True`); this is modelled explicitly.
* `np.log(1 + x)` followed by `cumsum` and `np.exp` is represented in
  exponential form: a value `v` in log space is stored as `exp v`, so a
  finite log becomes a positive rational, `log 0 = -inf` becomes `0`
  (since `exp (-inf) = 0`, and `-inf` absorbs any later finite summand,
  just as the factor `0` absorbs any later positive factor), and
  `log` of a negative number becomes NaN (`none`).  Sums in log space
  are then exact products of rationals, so every definition stays
  computable.
* In-place mutation of a pandas object (`check_negative_balance`) is
  modelled by returning the updated series next to the original result.
* A Python function that lets an exception escape (or that catches one
  and returns `None`) is modelled as returning `none : Option _`.
* Asset identifiers (pandas column labels) are modelled as `ℕ`,
  dates (index labels) as `ℕ` as well.
-/

set_option allowUnsafeReducibility true

attribute [semireducible] Rat.mul Rat.inv Rat.add Rat.sub Rat.ofScientific

/-- A float value: `some q` is the finite value `q`, `none` is NaN/±inf. -/
abbrev V := Option ℚ

/-- Float addition (non-finite operands poison the result). -/
def vadd : V → V → V
  | some a, some b => some (a + b)
  | _, _ => none

/-- Float subtraction. -/
def vsub : V → V → V
  | some a, some b => some (a - b)
  | _, _ => none

/-- Float multiplication. -/
def vmul : V → V → V
  | some a, some b => some (a * b)
  | _, _ => none

/-- Float division: division by zero yields a non-finite value (±inf or NaN). -/
def vdiv : V → V → V
  | some a, some b => if b = 0 then none else some (a / b)
  | _, _ => none

/-- Float absolute value. -/
def vabs : V → V
  | some a => some |a|
  | none => none

/-- The comparison `x <= 0` on floats: false on NaN. -/
def vle0 : V → Bool
  | some a => decide (a ≤ 0)
  | none => false

/-- The comparison `x > 0` on floats: false on NaN. -/
def vpos : V → Bool
  | some a => decide (0 < a)
  | none => false

/-- The comparison `x < 0` on floats: false on NaN. -/
def vneg : V → Bool
  | some a => decide (a < 0)
  | none => false

/-- pandas `Series.sum` with its default `skipna=True`: non-finite entries
are dropped, and the empty sum is `0`. -/
def psum (l : List V) : V := some (l.filterMap id).sum

/-- Floor of a rational, computed from the numerator and denominator. -/
def qfloor (x : ℚ) : ℤ := Int.fdiv x.num x.den

/-- Round-half-to-even to an integer, as Python `round` and `np.round` do. -/
def round_half_even (x : ℚ) : ℤ :=
  let n := qfloor x
  let r := x - n
  if r < 1/2 then n
  else if 1/2 < r then n + 1
  else if n % 2 = 0 then n else n + 1

/-- `round(x, d)`: round to `d` decimal places, ties to even. -/
def roundTo (d : ℕ) (x : ℚ) : ℚ := (round_half_even (x * 10 ^ d) : ℚ) / 10 ^ d

/-- Rounding a float to `d` decimals (NaN/inf round to themselves). -/
def vround (d : ℕ) : V → V
  | some a => some (roundTo d a)
  | none => none

/-- `check_negative_balance` (utils.py lines 6-17).  The Python function
mutates its argument in place and returns only the boolean flag; the
mutation is modelled by returning the updated series as the first
component.  It finds the first position whose value is `<= 0` and
overwrites that position and every later one with `0`, returning `False`;
if no value is `<= 0` the series is untouched and it returns `True`. -/
def check_negative_balance : List V → List V × Bool
  | [] => ([], true)
  | x :: xs =>
    if vle0 x then (List.replicate (xs.length + 1) (some 0), false)
    else
      let r := check_negative_balance xs
      (x :: r.1, r.2)

/-- `get_net_balance` (utils.py lines 19-25): transaction costs are applied
multiplicatively and the result rounded to 2 decimals, but a balance that
is not `> 0` nets to exactly `0`. -/
def get_net_balance (balance : V) (reb_cost : V) : V :=
  if vpos balance then vround 2 (vmul balance (vsub (some 1) reb_cost)) else some 0

/-- Membership lookup of an index label in a weight series. -/
def lookupV (w : List (ℕ × V)) (a : ℕ) : Option V :=
  (w.find? (fun p => p.1 == a)).map (fun p => p.2)

/-- The union of the index labels of two series, as produced by
`Series.align` (order is irrelevant here, only the resulting sum is used). -/
def alignKeys (cur prev : List (ℕ × V)) : List ℕ :=
  cur.map (fun p => p.1) ++
    (prev.map (fun p => p.1)).filter (fun a => decide (a ∉ cur.map (fun p => p.1)))

/-- Value of an aligned series at a label: labels absent from the series
are filled with `0` (`align(..., fill_value=0)`); present labels keep
their stored value, NaN included. -/
def alignedGet (w : List (ℕ × V)) (a : ℕ) : V :=
  match lookupV w a with
  | some v => v
  | none => some 0

/-- `calculate_rebalance_cost` (utils.py lines 148-173): align the two
weight series over the union of their labels filling missing entries with
0, sum the absolute weight differences times the transaction cost
(a pandas skipna sum), and round to 6 decimals. -/
def calculate_rebalance_cost (current_portfolio prev_portfolio : List (ℕ × V))
    (transaction_cost : ℚ) : V :=
  let keys := alignKeys current_portfolio prev_portfolio
  let weight_difference := keys.map (fun a =>
    vabs (vsub (alignedGet current_portfolio a) (alignedGet prev_portfolio a)))
  vround 6 (psum (weight_difference.map (fun d => vmul d (some transaction_cost))))

/-- `calculate_leverage_costs` (utils.py lines 175-197): zero unless the
annual cost of debt is positive and some weight is negative, in which case
the daily cost rate times the absolute total of the negative weights. -/
def calculate_leverage_costs (annual_cost_of_debt : ℚ) (portfolio_weights : List (ℕ × V))
    (days_in_year : ℚ) : V :=
  if 0 < annual_cost_of_debt then
    let total_debt := vabs (psum ((portfolio_weights.filter (fun p => vneg p.2)).map (fun p => p.2)))
    if vpos total_debt then vmul (some (annual_cost_of_debt / days_in_year)) total_debt
    else some 0
  else some 0

/-- `get_costs` (utils.py lines 199-213): the transaction-cost branch is
skipped entirely when `trans_cost <= 0`; the leverage cost always runs
with the default 360-day year. -/
def get_costs (trans_cost : ℚ) (portfolio_weights last_weights : List (ℕ × V))
    (annual_kd : ℚ) : V × V :=
  (if trans_cost ≤ 0 then some 0
   else calculate_rebalance_cost portfolio_weights last_weights trans_cost,
   calculate_leverage_costs annual_kd portfolio_weights 360)

/-- The float `np.log(1 + x)`, in exponential representation: a finite log
value `v` is stored as `exp v = 1 + x`, the value `log 0 = -inf` is stored
as `0 = exp (-inf)`, and `log` of a negative argument is NaN. -/
def log1p : V → V
  | none => none
  | some x => if 0 < 1 + x then some (1 + x) else if 1 + x = 0 then some 0 else none

/-- pandas `cumsum` (with its default `skipna=True`) on a column of
log-space values in exponential representation: sums of logs become
products, a NaN entry produces a NaN output at its position but is
skipped by the running accumulation.  `acc` is the exponential of the sum
accumulated so far (initially `exp 0 = 1`, or an initial allocation
folded in by the caller). -/
def cumsum_skipna (acc : ℚ) : List V → List V
  | [] => []
  | none :: xs => none :: cumsum_skipna acc xs
  | some v :: xs => some (acc * v) :: cumsum_skipna (acc * v) xs

/-- One asset column of `position_NAV` (utils.py lines 45-51):
`(initial_portfolio * np.exp(np.log(1 + returns).cumsum())).round(2)`.
Multiplying the exponential representation of the cumulative log-return
by the initial allocation `alloc` is exactly `alloc * exp (cumsum)`. -/
def nav_column (alloc : V) (col : List V) : List V :=
  (cumsum_skipna 1 (col.map log1p)).map (fun e => vround 2 (vmul alloc e))

/-- Column `j` of a row-major returns table. -/
def ret_col (rets : List (List V)) (j : ℕ) : List V :=
  rets.map (fun r => r.getD j none)

/-- All asset columns of `position_NAV`, in the order of the weight series. -/
def nav_cols (w : List (ℕ × V)) (balance : V) (rets : List (List V)) : List (List V) :=
  (List.range w.length).map (fun j => nav_column (vmul ((w.getD j (0, none)).2) balance) (ret_col rets j))

/-- pandas `DataFrame.sum(axis=1)` over the NAV columns: each date
(row index `0 ≤ i < n`) gets the skipna sum across assets. -/
def sum_axis1 (cols : List (List V)) (n : ℕ) : List V :=
  (List.range n).map (fun i => psum (cols.map (fun c => c.getD i none)))

/-- `balance_over_time` (utils.py line 54): the row-wise total of the NAV table. -/
def balance_over_time (w : List (ℕ × V)) (balance : V) (rets : List (List V)) : List V :=
  sum_axis1 (nav_cols w balance rets) rets.length

/-- `position_NAV.iloc[-1]`: the last row of the NAV table, one value per asset. -/
def nav_last_row (w : List (ℕ × V)) (balance : V) (rets : List (List V)) : List V :=
  (nav_cols w balance rets).map (fun c => c.getLast?.getD none)

/-- pandas `Series.pct_change()`: NaN at the first date, then
`cur / prev - 1` (non-finite when the previous value is `0` or either
value is non-finite). -/
def pct_go (prev : V) : List V → List V
  | [] => []
  | x :: xs => vsub (vdiv x prev) (some 1) :: pct_go x xs

/-- pandas `Series.pct_change()` of a trajectory. -/
def pct_change : List V → List V
  | [] => []
  | x :: xs => none :: pct_go x xs

/-- The leverage-adjusted trajectory (utils.py lines 61-63):
`balance * np.exp(np.log(1 + (pct_change - kd)).cumsum())`, in the
exponential representation of log space. -/
def lev_traj (balance : V) (s : List V) (kd : V) : List V :=
  (cumsum_skipna 1 ((pct_change s).map (fun x => log1p (vsub x kd)))).map (fun e => vmul balance e)

/-- `port_balance_calc` (utils.py lines 28-81).  Returns `none` when the
Python function would swallow an exception and return `None` (which
happens exactly when the date-filtered returns are empty in the normal
branch, so that `balance_over_time.iloc[-1]` raises).  The first branch
condition `len(w) != w.isna().sum()` selects the normal path unless every
weight entry is missing.  The guard mutates `balance_over_time` in place;
here the mutated series is `g.1`. -/
def port_balance_calc (portfolio_weights : List (ℕ × V)) (balance : V)
    (date_filtered_returns : List (List V)) (kd : V) :
    Option (List V × List (ℕ × V)) :=
  if portfolio_weights.length ≠ (portfolio_weights.filter (fun p => p.2.isNone)).length then
    let g := check_negative_balance (balance_over_time portfolio_weights balance date_filtered_returns)
    let t := if vpos kd && g.2 then lev_traj balance g.1 kd else g.1
    match t.getLast? with
    | none => none
    | some final_balance =>
      some (t, (portfolio_weights.zip (nav_last_row portfolio_weights balance date_filtered_returns)).map
        (fun p => (p.1.1, vdiv p.2 final_balance)))
  else
    some (List.replicate date_filtered_returns.length balance,
      portfolio_weights.map (fun p => (p.1, some 0)))

/-- The external inputs of `get_balance` other than the starting balance:
the rebalance dates, the portfolios matrix (one column per rebalance,
labelled with its rebalance date, mapping asset to target weight or NaN),
the overall end date, and the simulation price data (row labels
`price_dates`, column labels `price_assets`, values `price asset date`,
all finite).  Transaction cost and annual cost of debt close the list. -/
structure OrchCtx where
  rebalance_dates : List ℕ
  portfolios : List (ℕ × List (ℕ × V))
  end_date : ℕ
  price_dates : List ℕ
  price_assets : List ℕ
  price : ℕ → ℕ → ℚ
  trans_cost : ℚ
  annual_kd : ℚ

/-- The loop state of `get_balance`: the running balance, the previous
ending weights (`last_weights`) and the start date of the next period. -/
structure OrchSt where
  balance : V
  last_weights : List (ℕ × V)
  returns_start_date : ℕ
deriving DecidableEq

/-- `sim_price_data[assets].loc[start:stop]` (utils.py line 126): the
price rows whose date lies in the closed interval, projected to the
given asset columns.  pandas label slicing on the (monotone) date index
is modelled as a filter. -/
def slice_rows (ctx : OrchCtx) (assets : List ℕ) (d0 d1 : ℕ) : List (List ℚ) :=
  (ctx.price_dates.filter (fun d => decide (d0 ≤ d) && decide (d ≤ d1))).map
    (fun d => assets.map (fun a => ctx.price a d))

/-- `DataFrame.pct_change(fill_method=None)` applied to the price rows
after the first: each row is `cur / prev - 1` per column, non-finite on a
zero previous price. -/
def price_pct_go (prev : List ℚ) : List (List ℚ) → List (List V)
  | [] => []
  | r :: rs =>
    (List.zipWith (fun p c => if p = 0 then none else some (c / p - 1)) prev r) :: price_pct_go r rs

/-- `...pct_change(fill_method=None).dropna()` (utils.py line 126): the
first row of `pct_change` is all-NaN and is dropped; `dropna()` also
drops any later row containing a non-finite entry. -/
def date_filtered_returns (ctx : OrchCtx) (assets : List ℕ) (d0 d1 : ℕ) : List (List V) :=
  (match slice_rows ctx assets d0 d1 with
   | [] => []
   | r :: rs => price_pct_go r rs).filter (fun r => r.all (fun x => x.isSome))

/-- Period `reb_n`'s target weights after `dropna()` (utils.py line 107). -/
def step_dropped (ctx : OrchCtx) (reb_n : ℕ) : List (ℕ × V) :=
  ((ctx.portfolios.getD reb_n (0, [])).2).filter (fun p => p.2.isSome)

/-- Period `reb_n`'s weights after the additional `!= 0` filter
(utils.py line 125). -/
def step_pw (ctx : OrchCtx) (reb_n : ℕ) : List (ℕ × V) :=
  (step_dropped ctx reb_n).filter (fun p => p.2 ≠ some 0)

/-- The end date of period `reb_n` (utils.py lines 110-116): the label of
the next portfolio column when there is one, else the overall end date. -/
def step_date_to (ctx : OrchCtx) (reb_n : ℕ) : ℕ :=
  if reb_n + 1 < ctx.rebalance_dates.length then (ctx.portfolios.getD (reb_n + 1) (0, [])).1
  else ctx.end_date

/-- The returns slice fed to period `reb_n` (utils.py line 126). -/
def step_rets (ctx : OrchCtx) (reb_n : ℕ) (st : OrchSt) : List (List V) :=
  date_filtered_returns ctx ((step_pw ctx reb_n).map (fun p => p.1))
    st.returns_start_date (step_date_to ctx reb_n)

/-- The `(reb_cost, lev_cost)` pair of period `reb_n` (utils.py lines
129-130): the Cost Model applied to the period's filtered target weights
against the previous period's ending weights carried in the state. -/
def step_costs (ctx : OrchCtx) (reb_n : ℕ) (st : OrchSt) : V × V :=
  get_costs ctx.trans_cost (step_pw ctx reb_n) st.last_weights ctx.annual_kd

/-- The net-of-transaction-cost starting balance of period `reb_n`
(utils.py line 133). -/
def step_net (ctx : OrchCtx) (reb_n : ℕ) (st : OrchSt) : V :=
  get_net_balance st.balance (step_costs ctx reb_n st).1

/-- The body of one loop iteration of `get_balance` (utils.py lines
125-144) once the period's end date is known: costs, net balance, period
simulation, and the state update
`(balance, last_weights, returns_start_date) :=
 (trajectory.iloc[-1], ending weights, date_to)`.
`none` models an uncaught exception (`port_balance_calc` returning
`None`, or `iloc[-1]` on an empty trajectory). -/
def orchBody (ctx : OrchCtx) (reb_n : ℕ) (st : OrchSt) : Option (Option (List V × OrchSt)) :=
  match port_balance_calc (step_pw ctx reb_n) (step_net ctx reb_n st) (step_rets ctx reb_n st)
      (step_costs ctx reb_n st).2 with
  | none => none
  | some (balance_df, lw) =>
    match balance_df.getLast? with
    | none => none
    | some b => some (some (balance_df, ⟨b, lw, step_date_to ctx reb_n⟩))

/-- One iteration of the `get_balance` loop (utils.py lines 105-144).
Outer `none` = crash; `some none` = the early `break` (final period whose
date range is empty); `some (some (trajectory, st'))` = a completed
period.  A missing portfolio column for the current index is an uncaught
`IndexError`; a missing column for the next index is caught and logged by
the source but leaves the loop to crash on the stale date range, so both
are modelled as a crash. -/
def orchStep (ctx : OrchCtx) (reb_n : ℕ) (st : OrchSt) : Option (Option (List V × OrchSt)) :=
  match ctx.portfolios.get? reb_n with
  | none => none
  | some _ =>
    if reb_n + 1 < ctx.rebalance_dates.length then
      match ctx.portfolios.get? (reb_n + 1) with
      | none => none
      | some _ => orchBody ctx reb_n st
    else
      if st.returns_start_date = ctx.end_date then some none
      else orchBody ctx reb_n st

/-- The `get_balance` loop over the period indices, accumulating the
`all_dates_balance` mapping (a dict with keys `0, 1, ...` in insertion
order, modelled as a list indexed by period). -/
def orchLoop (ctx : OrchCtx) : List ℕ → OrchSt → List (List V) → Option (List (List V))
  | [], _, acc => some acc
  | i :: is, st, acc =>
    match orchStep ctx i st with
    | none => none
    | some none => some acc
    | some (some (traj, st')) => orchLoop ctx is st' (acc ++ [traj])

/-- `get_balance` (utils.py lines 83-146): initialize the state to the
starting balance, an all-zero weight series over the price columns, and
the first rebalance date, then run the loop over all rebalance indices.
An empty `rebalance_dates` is the uncaught `IndexError` of line 98. -/
def get_balance (starting_balance : ℚ) (ctx : OrchCtx) : Option (List (List V)) :=
  match ctx.rebalance_dates.head? with
  | none => none
  | some d0 =>
    orchLoop ctx (List.range ctx.rebalance_dates.length)
      ⟨some starting_balance, ctx.price_assets.map (fun a => (a, some 0)), d0⟩ []

/-- The state reached after `m` completed periods, starting from state
`st` before period `i` (junk when a step fails or breaks). -/
def stslide (ctx : OrchCtx) (st : OrchSt) (i : ℕ) : ℕ → OrchSt
  | 0 => st
  | m + 1 =>
    match orchStep ctx (i + m) (stslide ctx st i m) with
    | some (some (_, st')) => st'
    | _ => stslide ctx st i m

/-- The weight a series assigns to a label, read as a rational: the stored
finite value, `0` for an absent label, junk `0` for a stored NaN (only used
under the hypothesis that all stored entries are finite). -/
def qweight (w : List (ℕ × V)) (a : ℕ) : ℚ := ((lookupV w a).getD (some 0)).getD 0

/-- The turnover described by the specification: the sum, over the union
of the asset identifiers of the two weight vectors, of absolute weight
differences, missing entries treated as weight 0. -/
def turnover (cur prev : List (ℕ × V)) : ℚ :=
  ∑ a ∈ ((cur.map (fun p => p.1)).toFinset ∪ (prev.map (fun p => p.1)).toFinset),
    |qweight cur a - qweight prev a|

/-- The short/borrowed exposure described by the specification: the sum of
the absolute values of the negative weights. -/
def short_exposure (w : List (ℕ × V)) : ℚ :=
  ((((w.filter (fun p => vneg p.2)).map (fun p => p.2)).filterMap id).map (fun q => |q|)).sum

/-- A two-asset run with a 180% annual cost of debt on a short position:
period 0's balance path is [100, 50, 20], so the leverage adjustment sees
the percent changes [NaN, -0.5, -0.6], subtracts the daily cost 0.5, and
takes the log of [0, -0.1]: the recorded trajectory is [NaN, 0.0, NaN]. -/
def c1ctx : OrchCtx :=
  ⟨[0], [(0, [(0, some 2), (1, some (-1))])], 3, [0, 1, 2, 3], [0, 1],
   fun a d => if a = 0 then (if d ≤ 1 then 100 else if d = 2 then 75 else 60) else 50,
   0, 180⟩

/-- A minimal one-period, one-asset, cost-free run: 100 invested at weight
1 over a single +10% return step gives the trajectory [110]. -/
def wctx : OrchCtx :=
  ⟨[0], [(0, [(0, some 1)])], 1, [0, 1], [0], fun _ d => if d = 0 then 100 else 110, 0, 0⟩

/-! ### Basic lemmas about the float carrier -/

theorem vle0_not_vpos {x : V} (h : vle0 x = true) : vpos x = false := by
  cases x with
  | none => simp [vle0] at h
  | some a =>
    simp only [vle0, decide_eq_true_eq] at h
    simp [vpos, not_lt.mpr h]

theorem vpos_none : vpos none = false := rfl

theorem round_half_even_zero : round_half_even 0 = 0 := by decide

theorem roundTo_zero (d : ℕ) : roundTo d 0 = 0 := by
  simp [roundTo, round_half_even_zero]

theorem psum_zeros {l : List V} (h : ∀ x ∈ l, x = some 0 ∨ x = none) : psum l = some 0 := by
  unfold psum
  congr 1
  induction l with
  | nil => rfl
  | cons x xs ih =>
    rcases h x (by simp) with hx | hx <;>
      simp [hx, List.filterMap_cons, ih (fun y hy => h y (by simp [hy]))]

theorem getD_mem_or {l : List α} {i : ℕ} {d : α} : l.getD i d ∈ l ∨ l.getD i d = d := by
  by_cases h : i < l.length
  · left
    rw [List.getD_eq_getElem _ _ h]
    exact List.getElem_mem h
  · right
    simp [List.getD_eq_getD_get?, List.getElem?_eq_none (by omega : l.length ≤ i)]

/-! ### Lemmas about the Balance Depletion Guard -/

theorem cnb_flag (s : List V) : (check_negative_balance s).2 = s.all (fun x => !vle0 x) := by
  induction s with
  | nil => rfl
  | cons x xs ih =>
    by_cases h : vle0 x = true
    · simp [check_negative_balance, h]
    · simp only [Bool.not_eq_true] at h
      simp [check_negative_balance, h, ih]

theorem cnb_fst_of_pos {s : List V} (h : ∀ x ∈ s, vle0 x = false) :
    (check_negative_balance s).1 = s := by
  induction s with
  | nil => rfl
  | cons x xs ih =>
    have hx := h x (by simp)
    simp [check_negative_balance, hx, ih (fun y hy => h y (by simp [hy]))]

theorem cnb_length (s : List V) : (check_negative_balance s).1.length = s.length := by
  induction s with
  | nil => rfl
  | cons x xs ih =>
    by_cases h : vle0 x = true
    · simp [check_negative_balance, h]
    · simp only [Bool.not_eq_true] at h
      simp [check_negative_balance, h, ih]

theorem cnb_flag_false_mem {s : List V} (h : (check_negative_balance s).2 = false) :
    ∃ x ∈ s, vle0 x = true := by
  rw [cnb_flag] at h
  simpa [List.all_eq_true] using h

theorem cnb_flag_true_mem {s : List V} (h : (check_negative_balance s).2 = true) :
    ∀ x ∈ s, vle0 x = false := by
  rw [cnb_flag] at h
  rw [List.all_eq_true] at h
  intro x hx
  simpa using h x hx

theorem cnb_false_getLast {s : List V} (h : (check_negative_balance s).2 = false) :
    (check_negative_balance s).1.getLast? = some (some 0) := by
  induction s with
  | nil => simp [check_negative_balance] at h
  | cons x xs ih =>
    by_cases hx : vle0 x = true
    · simp [check_negative_balance, hx, List.getLast?_replicate]
    · simp only [Bool.not_eq_true] at hx
      simp only [check_negative_balance, hx, Bool.false_eq_true, if_false] at h ⊢
      have h' := ih h
      rcases hne : (check_negative_balance xs).1 with _ | ⟨y, ys⟩
      · rw [hne] at h'
        simp at h'
      · rw [hne] at h'
        simpa [List.getLast?_cons_cons] using h'

theorem cnb_after_nonpos {s : List V} {j : ℕ} {x : V}
    (hj : (check_negative_balance s).1[j]? = some x) (hx : vle0 x = true) :
    ∀ j', j < j' → j' < s.length → (check_negative_balance s).1[j']? = some (some 0) := by
  induction s generalizing j with
  | nil => simp [check_negative_balance] at hj
  | cons y ys ih =>
    intro j' hjj' hj'
    by_cases hy : vle0 y = true
    · simp only [check_negative_balance, hy, if_true] at hj ⊢
      have : j' < ys.length + 1 := by simpa using hj'
      simp [List.getElem?_replicate, this]
    · simp only [Bool.not_eq_true] at hy
      simp only [check_negative_balance, hy, Bool.false_eq_true, if_false] at hj ⊢
      cases j with
      | zero =>
        simp only [List.getElem?_cons_zero, Option.some_inj] at hj
        rw [← hj] at hx
        rw [hx] at hy
        cases hy
      | succ k =>
        obtain ⟨k', rfl⟩ : ∃ k', j' = k' + 1 := ⟨j' - 1, by omega⟩
        simp only [List.getElem?_cons_succ] at hj ⊢
        exact ih hj k' (by omega) (by simpa using hj')

/-- Entirely nonpositive head: the guard fires at position 0. -/
theorem cnb_zero_head {xs : List V} :
    check_negative_balance (some 0 :: xs) = (List.replicate (xs.length + 1) (some 0), false) := by
  simp [check_negative_balance, vle0]

/-! ### Lemmas about the log-space pipeline -/

theorem log1p_nonneg {x : V} {v : ℚ} (h : log1p x = some v) : 0 ≤ v := by
  cases x with
  | none => simp [log1p] at h
  | some a =>
    by_cases h1 : 0 < 1 + a
    · simp only [log1p, if_pos h1, Option.some_inj] at h
      linarith
    · simp only [log1p, if_neg h1] at h
      by_cases h2 : 1 + a = 0
      · simp only [if_pos h2, Option.some_inj] at h
        simp [← h]
      · simp [if_neg h2] at h

theorem cumsum_abs {xs : List V} {a : ℚ} {j : ℕ} {u : ℚ}
    (hxs : ∀ x ∈ xs, ∀ v, x = some v → 0 ≤ v)
    (hj : (cumsum_skipna a xs)[j]? = some (some u)) :
    ∃ c : ℚ, 0 ≤ c ∧ u = a * c := by
  induction xs generalizing a j with
  | nil => simp [cumsum_skipna] at hj
  | cons x xs ih =>
    cases x with
    | none =>
      cases j with
      | zero => simp [cumsum_skipna] at hj
      | succ k =>
        simp only [cumsum_skipna, List.getElem?_cons_succ] at hj
        exact ih (fun y hy => hxs y (by simp [hy])) hj
    | some v =>
      have hv : 0 ≤ v := hxs (some v) (by simp) v rfl
      cases j with
      | zero =>
        simp only [cumsum_skipna, List.getElem?_cons_zero, Option.some_inj] at hj
        exact ⟨v, hv, by rw [← hj]⟩
      | succ k =>
        simp only [cumsum_skipna, List.getElem?_cons_succ] at hj
        obtain ⟨c, hc, hu⟩ := ih (fun y hy => hxs y (by simp [hy])) hj
        exact ⟨v * c, mul_nonneg hv hc, by rw [hu]; ring⟩

theorem cumsum_factor {xs : List V} {a : ℚ} {j j' : ℕ} {u u' : ℚ}
    (hxs : ∀ x ∈ xs, ∀ v, x = some v → 0 ≤ v) (hjj' : j < j')
    (hj : (cumsum_skipna a xs)[j]? = some (some u))
    (hj' : (cumsum_skipna a xs)[j']? = some (some u')) :
    ∃ c : ℚ, 0 ≤ c ∧ u' = u * c := by
  induction xs generalizing a j j' with
  | nil => simp [cumsum_skipna] at hj
  | cons x xs ih =>
    cases x with
    | none =>
      cases j with
      | zero => simp [cumsum_skipna] at hj
      | succ k =>
        obtain ⟨k', rfl⟩ : ∃ k', j' = k' + 1 := ⟨j' - 1, by omega⟩
        simp only [cumsum_skipna, List.getElem?_cons_succ] at hj hj'
        exact ih (fun y hy => hxs y (by simp [hy])) (by omega) hj hj'
    | some v =>
      have hxs' : ∀ y ∈ xs, ∀ v, y = some v → 0 ≤ v := fun y hy => hxs y (by simp [hy])
      obtain ⟨k', rfl⟩ : ∃ k', j' = k' + 1 := ⟨j' - 1, by omega⟩
      cases j with
      | zero =>
        simp only [cumsum_skipna, List.getElem?_cons_zero, Option.some_inj] at hj
        simp only [cumsum_skipna, List.getElem?_cons_succ] at hj'
        obtain ⟨c, hc, hu'⟩ := cumsum_abs hxs' hj'
        exact ⟨c, hc, by rw [hu', ← hj]⟩
      | succ k =>
        simp only [cumsum_skipna, List.getElem?_cons_succ] at hj hj'
        exact ih hxs' (by omega) hj hj'

/-- Once an entry of the leverage-adjusted trajectory is `<= 0`, every later
entry is `<= 0` or non-finite: the remaining factors `exp (log (1+x))` are
nonnegative. -/
theorem lev_after_nonpos {b kd : V} {s : List V} {j j' : ℕ} {x y : V}
    (hjj' : j < j')
    (hx : (lev_traj b s kd)[j]? = some x) (hxle : vle0 x = true)
    (hy : (lev_traj b s kd)[j']? = some y) :
    vle0 y = true ∨ y = none := by
  have hxs : ∀ z ∈ (pct_change s).map (fun w => log1p (vsub w kd)), ∀ v, z = some v → 0 ≤ v := by
    intro z hz v hzv
    obtain ⟨w, _, rfl⟩ := List.mem_map.mp hz
    exact log1p_nonneg hzv
  unfold lev_traj at hx hy
  rw [List.getElem?_map] at hx hy
  obtain ⟨e, he, hxe⟩ : ∃ e, (cumsum_skipna 1 ((pct_change s).map fun w => log1p (vsub w kd)))[j]? = some e ∧ x = vmul b e := by
    cases hc : (cumsum_skipna 1 ((pct_change s).map fun w => log1p (vsub w kd)))[j]? with
    | none => rw [hc] at hx; simp at hx
    | some e => rw [hc] at hx; exact ⟨e, rfl, by simpa using hx.symm⟩
  obtain ⟨e', he', hye⟩ : ∃ e', (cumsum_skipna 1 ((pct_change s).map fun w => log1p (vsub w kd)))[j']? = some e' ∧ y = vmul b e' := by
    cases hc : (cumsum_skipna 1 ((pct_change s).map fun w => log1p (vsub w kd)))[j']? with
    | none => rw [hc] at hy; simp at hy
    | some e' => rw [hc] at hy; exact ⟨e', rfl, by simpa using hy.symm⟩
  cases e' with
  | none => right; rw [hye]; cases b <;> rfl
  | some ev' =>
    cases e with
    | none =>
      rw [hxe] at hxle
      cases b <;> simp [vmul, vle0] at hxle
    | some ev =>
      cases b with
      | none => rw [hxe] at hxle; simp [vmul, vle0] at hxle
      | some bv =>
        left
        rw [hxe] at hxle
        simp only [vmul, vle0, decide_eq_true_eq] at hxle
        obtain ⟨c, hc, hfac⟩ := cumsum_factor hxs hjj' he he'
        rw [hye]
        simp only [vmul, vle0, decide_eq_true_eq]
        rw [hfac, ← mul_assoc]
        exact mul_nonpos_of_nonpos_of_nonneg hxle hc

/-! ### Inversion lemmas for the Period Balance Simulator -/

theorem filter_isNone_all {w : List (ℕ × V)} :
    w.length = (w.filter (fun p => p.2.isNone)).length ↔ ∀ p ∈ w, p.2 = none := by
  constructor
  · intro h
    have hs : w.filter (fun p => p.2.isNone) = w :=
      List.Sublist.eq_of_length (List.filter_sublist _) h.symm
    intro p hp
    have := List.filter_eq_self.mp hs p hp
    simpa [Option.isNone_iff_eq_none] using this
  · intro h
    rw [List.filter_eq_self.mpr (fun p hp => by simp [Option.isNone_iff_eq_none, h p hp])]

theorem port_normal_eq {w : List (ℕ × V)} {b : V} {rets : List (List V)} {kd : V}
    (hcond : w.length ≠ (w.filter (fun p => p.2.isNone)).length) :
    port_balance_calc w b rets kd =
      (match (if vpos kd && (check_negative_balance (balance_over_time w b rets)).2
              then lev_traj b (check_negative_balance (balance_over_time w b rets)).1 kd
              else (check_negative_balance (balance_over_time w b rets)).1).getLast? with
       | none => none
       | some fb =>
         some ((if vpos kd && (check_negative_balance (balance_over_time w b rets)).2
                then lev_traj b (check_negative_balance (balance_over_time w b rets)).1 kd
                else (check_negative_balance (balance_over_time w b rets)).1),
           (w.zip (nav_last_row w b rets)).map (fun p => (p.1.1, vdiv p.2 fb)))) := by
  rw [port_balance_calc, if_pos hcond]

theorem port_cases {w : List (ℕ × V)} {b : V} {rets : List (List V)} {kd : V}
    {t : List V} {fw : List (ℕ × V)}
    (h : port_balance_calc w b rets kd = some (t, fw)) :
    (¬ (∀ p ∈ w, p.2 = none) ∧
      t = (if vpos kd && (check_negative_balance (balance_over_time w b rets)).2
           then lev_traj b (check_negative_balance (balance_over_time w b rets)).1 kd
           else (check_negative_balance (balance_over_time w b rets)).1) ∧
      ∃ fb, t.getLast? = some fb ∧
        fw = (w.zip (nav_last_row w b rets)).map (fun p => (p.1.1, vdiv p.2 fb))) ∨
    ((∀ p ∈ w, p.2 = none) ∧ t = List.replicate rets.length b ∧
      fw = w.map (fun p => (p.1, some 0))) := by
  by_cases hcond : w.length ≠ (w.filter (fun p => p.2.isNone)).length
  · left
    refine ⟨fun hall => hcond (filter_isNone_all.mpr hall), ?_⟩
    rw [port_normal_eq hcond] at h
    cases hlast : (if vpos kd && (check_negative_balance (balance_over_time w b rets)).2
        then lev_traj b (check_negative_balance (balance_over_time w b rets)).1 kd
        else (check_negative_balance (balance_over_time w b rets)).1).getLast? with
    | none => rw [hlast] at h; exact absurd h (by simp)
    | some fb =>
      rw [hlast] at h
      simp only [Option.some_inj, Prod.mk.injEq] at h
      exact ⟨h.1.symm, fb, h.1 ▸ hlast, h.2.symm⟩
  · right
    push_neg at hcond
    refine ⟨filter_isNone_all.mp hcond, ?_⟩
    rw [port_balance_calc, if_neg (by simpa using hcond)] at h
    simp only [Option.some_inj, Prod.mk.injEq] at h
    exact ⟨h.1.symm, h.2.symm⟩

theorem port_degenerate_eq {w : List (ℕ × V)} {b : V} {rets : List (List V)} {kd : V}
    (hall : ∀ p ∈ w, p.2 = none) :
    port_balance_calc w b rets kd =
      some (List.replicate rets.length b, w.map (fun p => (p.1, some 0))) := by
  rw [port_balance_calc, if_neg]
  simp only [ne_eq, not_not]
  exact filter_isNone_all.mpr hall

theorem nav_cols_zero {w : List (ℕ × V)} {rets : List (List V)}
    (hw : ∀ p ∈ w, p.2.isSome = true) :
    ∀ c ∈ nav_cols w (some 0) rets, ∀ e ∈ c, e = some 0 ∨ e = none := by
  intro c hc e he
  rw [nav_cols, List.mem_map] at hc
  obtain ⟨j, hj, rfl⟩ := hc
  rw [List.mem_range] at hj
  have hpm : w.getD j (0, none) ∈ w := by
    rw [List.getD_eq_getElem _ _ hj]
    exact List.getElem_mem hj
  obtain ⟨q, hq⟩ := Option.isSome_iff_exists.mp (hw _ hpm)
  rw [nav_column, List.mem_map] at he
  obtain ⟨e', _, rfl⟩ := he
  rw [hq]
  cases e' with
  | none => right; rfl
  | some v => left; simp [vmul, vround, roundTo_zero]

theorem balance_over_time_zero {w : List (ℕ × V)} (rets : List (List V))
    (hw : ∀ p ∈ w, p.2.isSome = true) :
    ∀ y ∈ balance_over_time w (some 0) rets, y = some 0 := by
  intro y hy
  rw [balance_over_time, sum_axis1, List.mem_map] at hy
  obtain ⟨i, _, rfl⟩ := hy
  apply psum_zeros
  intro z hz
  rw [List.mem_map] at hz
  obtain ⟨c, hc, rfl⟩ := hz
  rcases (getD_mem_or : c.getD i none ∈ c ∨ c.getD i none = none) with hm | hd
  · exact nav_cols_zero hw c hc _ hm
  · right
    exact hd

/-- A period started on a zero net balance (with well-formed weights, as
the orchestrator supplies them) produces an all-zero trajectory. -/
theorem port_zero {w : List (ℕ × V)} {rets : List (List V)} {kd : V}
    {t : List V} {fw : List (ℕ × V)} (hw : ∀ p ∈ w, p.2.isSome = true)
    (h : port_balance_calc w (some 0) rets kd = some (t, fw)) :
    ∀ y ∈ t, y = some 0 := by
  rcases port_cases h with ⟨_, ht, fb, hlast, _⟩ | ⟨_, ht, _⟩
  · have hs := balance_over_time_zero rets hw
    rcases hss : balance_over_time w (some 0) rets with _ | ⟨z, zs⟩
    · rw [hss] at ht
      have ht' : t = [] := by
        rw [ht]
        cases (vpos kd && (check_negative_balance ([] : List V)).2) <;> rfl
      rw [ht'] at hlast
      simp at hlast
    · have hz : z = some 0 := hs z (by rw [hss]; exact List.mem_cons_self z zs)
      rw [hss, hz, cnb_zero_head] at ht
      simp only [Bool.and_false, Bool.false_eq_true, if_false] at ht
      intro y hy
      rw [ht] at hy
      exact List.eq_of_mem_replicate hy
  · intro y hy
    rw [ht] at hy
    exact List.eq_of_mem_replicate hy

/-- If a trajectory returned by the simulator contains a value `<= 0`,
its final value is not `> 0` (it is `<= 0` or non-finite). -/
theorem port_last_nonpos {w : List (ℕ × V)} {b : V} {rets : List (List V)} {kd : V}
    {t : List V} {fw : List (ℕ × V)}
    (h : port_balance_calc w b rets kd = some (t, fw))
    {j : ℕ} {x : V} (hj : t[j]? = some x) (hx : vle0 x = true) :
    ∃ fb, t.getLast? = some fb ∧ vpos fb = false := by
  rcases port_cases h with ⟨_, ht, fb, hlast, _⟩ | ⟨_, ht, _⟩
  · refine ⟨fb, hlast, ?_⟩
    by_cases hbr : (vpos kd && (check_negative_balance (balance_over_time w b rets)).2) = true
    · rw [if_pos hbr] at ht
      have hne : t ≠ [] := by
        intro hemp
        rw [hemp] at hlast
        simp at hlast
      have hlast' : t[t.length - 1]? = some fb := by
        rw [← List.getLast?_eq_getElem?]
        exact hlast
      have hjlt : j < t.length := by
        rcases List.getElem?_eq_some_iff.mp hj with ⟨hlt, _⟩
        exact hlt
      by_cases hjl : j = t.length - 1
      · rw [hjl, hlast'] at hj
        have : fb = x := by injection hj
        rw [this]
        exact vle0_not_vpos hx
      · have hlt : j < t.length - 1 := by omega
        subst ht
        rcases lev_after_nonpos hlt hj hx hlast' with hle | hnone
        · exact vle0_not_vpos hle
        · rw [hnone]
          rfl
    · rw [if_neg hbr] at ht
      cases hflag : (check_negative_balance (balance_over_time w b rets)).2 with
      | false =>
        have hgl := cnb_false_getLast hflag
        rw [← ht, hlast] at hgl
        have : fb = some 0 := by injection hgl
        rw [this]
        rfl
      | true =>
        have hmem : x ∈ t := List.getElem?_mem hj
        have hpos := cnb_flag_true_mem hflag
        rw [ht, cnb_fst_of_pos hpos] at hmem
        rw [hpos x hmem] at hx
        cases hx
  · have hmem : x ∈ t := List.getElem?_mem hj
    rw [ht] at hmem
    have hxb : x = b := List.eq_of_mem_replicate hmem
    have hne : rets.length ≠ 0 := by
      intro h0
      rw [ht, h0] at hj
      simp at hj
    refine ⟨b, ?_, ?_⟩
    · rw [ht, List.getLast?_replicate]
      simp [hne]
    · rw [← hxb]
      exact vle0_not_vpos hx

/-- Within one trajectory returned by the simulator, every value after a
value `<= 0` is itself `<= 0` or non-finite. -/
theorem port_after_nonpos {w : List (ℕ × V)} {b : V} {rets : List (List V)} {kd : V}
    {t : List V} {fw : List (ℕ × V)}
    (h : port_balance_calc w b rets kd = some (t, fw))
    {j j' : ℕ} {x y : V} (hjj' : j < j')
    (hj : t[j]? = some x) (hx : vle0 x = true) (hj' : t[j']? = some y) :
    vle0 y = true ∨ y = none := by
  rcases port_cases h with ⟨_, ht, fb, hlast, _⟩ | ⟨_, ht, _⟩
  · by_cases hbr : (vpos kd && (check_negative_balance (balance_over_time w b rets)).2) = true
    · rw [if_pos hbr] at ht
      subst ht
      exact lev_after_nonpos hjj' hj hx hj'
    · rw [if_neg hbr] at ht
      cases hflag : (check_negative_balance (balance_over_time w b rets)).2 with
      | false =>
        subst ht
        have hlen : j' < (balance_over_time w b rets).length := by
          rcases List.getElem?_eq_some_iff.mp hj' with ⟨hlt, _⟩
          rw [cnb_length] at hlt
          exact hlt
        have := cnb_after_nonpos hj hx j' hjj' hlen
        rw [hj'] at this
        left
        rw [Option.some_inj.mp this]
        rfl
      | true =>
        have hmem : x ∈ t := List.getElem?_mem hj
        have hpos := cnb_flag_true_mem hflag
        rw [ht, cnb_fst_of_pos hpos] at hmem
        rw [hpos x hmem] at hx
        cases hx
  · have hmem : x ∈ t := List.getElem?_mem hj
    have hmem' : y ∈ t := List.getElem?_mem hj'
    rw [ht] at hmem hmem'
    left
    rw [List.eq_of_mem_replicate hmem', ← List.eq_of_mem_replicate hmem]
    exact hx

/-! ### Lemmas about the orchestrator loop -/

theorem orchLoop_append (ctx : OrchCtx) (is : List ℕ) (st : OrchSt) (acc : List (List V)) :
    orchLoop ctx is st acc = (orchLoop ctx is st []).map (fun l => acc ++ l) := by
  induction is generalizing st acc with
  | nil => simp [orchLoop]
  | cons i is ih =>
    simp only [orchLoop]
    cases orchStep ctx i st with
    | none => rfl
    | some o =>
      cases o with
      | none => simp
      | some r =>
        simp only []
        rw [ih r.2 (acc ++ [r.1]), ih r.2 ([] ++ [r.1]), Option.map_map]
        congr 1
        funext l
        simp

theorem orchStep_some {ctx : OrchCtx} {i : ℕ} {st : OrchSt} {r : List V × OrchSt}
    (h : orchStep ctx i st = some (some r)) : orchBody ctx i st = some (some r) := by
  unfold orchStep at h
  split at h
  · exact absurd h (by simp)
  · split at h
    · split at h
      · exact absurd h (by simp)
      · exact h
    · split at h
      · exact absurd h (by simp)
      · exact h

theorem orchBody_some {ctx : OrchCtx} {i : ℕ} {st : OrchSt} {t : List V} {st' : OrchSt}
    (h : orchBody ctx i st = some (some (t, st'))) :
    ∃ lw, port_balance_calc (step_pw ctx i) (step_net ctx i st) (step_rets ctx i st)
        (step_costs ctx i st).2 = some (t, lw) ∧
      t.getLast? = some st'.balance ∧ st'.last_weights = lw ∧
      st'.returns_start_date = step_date_to ctx i := by
  unfold orchBody at h
  split at h
  · exact absurd h (by simp)
  · next bdf lw hport =>
    split at h
    · exact absurd h (by simp)
    · next b hlast =>
      simp only [Option.some_inj, Prod.mk.injEq] at h
      obtain ⟨h1, h2⟩ := h
      refine ⟨lw, ?_, ?_, ?_, ?_⟩
      · rw [← h1, hport]
      · rw [← h1, hlast, ← h2]
      · rw [← h2]
      · rw [← h2]

theorem step_pw_isSome (ctx : OrchCtx) (i : ℕ) : ∀ p ∈ step_pw ctx i, p.2.isSome = true := by
  intro p hp
  rw [step_pw, List.mem_filter] at hp
  rw [step_dropped, List.mem_filter] at hp
  exact hp.1.2

theorem step_net_of_not_pos {ctx : OrchCtx} {i : ℕ} {st : OrchSt}
    (h : vpos st.balance = false) : step_net ctx i st = some 0 := by
  simp [step_net, get_net_balance, h]

/-- Once the running balance is not `> 0`, every remaining recorded
trajectory is identically zero. -/
theorem run_zero_tail (ctx : OrchCtx) (is : List ℕ) (st : OrchSt) (out : List (List V))
    (hb : vpos st.balance = false) (h : orchLoop ctx is st [] = some out) :
    ∀ t ∈ out, ∀ y ∈ t, y = some 0 := by
  induction is generalizing st out with
  | nil =>
    simp only [orchLoop, Option.some_inj] at h
    rw [← h]
    simp
  | cons i is ih =>
    simp only [orchLoop] at h
    cases hstep : orchStep ctx i st with
    | none => rw [hstep] at h; exact absurd h (by simp)
    | some o =>
      rw [hstep] at h
      cases o with
      | none =>
        simp only [Option.some_inj] at h
        rw [← h]
        simp
      | some r =>
        obtain ⟨t0, st'⟩ := r
        replace h : orchLoop ctx is st' ([] ++ [t0]) = some out := h
        rw [orchLoop_append] at h
        cases hrest : orchLoop ctx is st' [] with
        | none => rw [hrest] at h; exact absurd h (by simp)
        | some out' =>
          rw [hrest] at h
          simp only [Option.map_some', Option.some_inj] at h
          obtain ⟨lw, hport, hlast, _, _⟩ := orchBody_some (orchStep_some hstep)
          rw [step_net_of_not_pos hb] at hport
          have ht0 := port_zero (step_pw_isSome ctx i) hport
          have hb' : vpos st'.balance = false := by
            have : st'.balance ∈ t0 := List.mem_of_getLast?_eq_some hlast
            rw [ht0 _ this]
            rfl
          intro t ht y hy
          rw [← h] at ht
          simp only [List.nil_append, List.singleton_append, List.mem_cons] at ht
          rcases ht with rfl | ht
          · exact ht0 y hy
          · exact ih st' out' hb' hrest t ht y hy

theorem stslide_shift {ctx : OrchCtx} {i : ℕ} {st : OrchSt} {t : List V} {st' : OrchSt}
    (h : orchStep ctx i st = some (some (t, st'))) :
    ∀ m, stslide ctx st i (m + 1) = stslide ctx st' (i + 1) m := by
  intro m
  induction m with
  | zero => simp [stslide, h]
  | succ m ihm =>
    show (match orchStep ctx (i + (m + 1)) (stslide ctx st i (m + 1)) with
      | some (some (_, s)) => s
      | _ => stslide ctx st i (m + 1)) = stslide ctx st' (i + 1) (m + 1)
    rw [ihm]
    have harith : i + (m + 1) = (i + 1) + m := by omega
    rw [harith]
    rfl

/-- Unfolding the successful run of the orchestrator loop: the `m`-th
recorded trajectory is produced by `orchStep` at index `i + m` from the
threaded state, which it updates to the state used by the next step. -/
theorem run_steps (ctx : OrchCtx) :
    ∀ (k i : ℕ) (st : OrchSt) (out : List (List V)),
      orchLoop ctx (List.range' i k) st [] = some out →
      ∀ m, m < out.length →
        orchStep ctx (i + m) (stslide ctx st i m) =
          some (some (out.getD m [], stslide ctx st i (m + 1))) := by
  intro k
  induction k with
  | zero =>
    intro i st out h m hm
    simp only [List.range', orchLoop, Option.some_inj] at h
    rw [← h] at hm
    simp at hm
  | succ k ih =>
    intro i st out h m hm
    rw [List.range'_succ] at h
    simp only [orchLoop] at h
    cases hstep : orchStep ctx i st with
    | none => rw [hstep] at h; exact absurd h (by simp)
    | some o =>
      rw [hstep] at h
      cases o with
      | none =>
        simp only [Option.some_inj] at h
        rw [← h] at hm
        simp at hm
      | some r =>
        obtain ⟨t0, st'⟩ := r
        replace h : orchLoop ctx (List.range' (i + 1) k) st' ([] ++ [t0]) = some out := h
        rw [orchLoop_append] at h
        cases hrest : orchLoop ctx (List.range' (i + 1) k) st' [] with
        | none => rw [hrest] at h; exact absurd h (by simp)
        | some out' =>
          rw [hrest] at h
          simp only [Option.map_some', Option.some_inj] at h
          cases m with
          | zero =>
            rw [← h]
            simpa [stslide_shift hstep 0] using hstep
          | succ m =>
            have hm' : m < out'.length := by
              rw [← h] at hm
              simpa using hm
            have := ih (i + 1) st' out' hrest m hm'
            rw [← stslide_shift hstep m, ← stslide_shift hstep (m + 1)] at this
            have harith : i + 1 + m = i + (m + 1) := by omega
            rw [harith] at this
            rw [← h]
            simpa using this

/-- Dropping the first `m` recorded periods corresponds to running the
loop from the state after `m` steps. -/
theorem run_drop (ctx : OrchCtx) :
    ∀ (m k i : ℕ) (st : OrchSt) (out : List (List V)),
      orchLoop ctx (List.range' i k) st [] = some out →
      m ≤ out.length →
      orchLoop ctx (List.range' (i + m) (k - m)) (stslide ctx st i m) [] = some (out.drop m) := by
  intro m
  induction m with
  | zero =>
    intro k i st out h _
    simpa [stslide] using h
  | succ m ih =>
    intro k i st out h hm
    cases k with
    | zero =>
      simp only [List.range', orchLoop, Option.some_inj] at h
      rw [← h] at hm
      simp at hm
    | succ k =>
      rw [List.range'_succ] at h
      simp only [orchLoop] at h
      cases hstep : orchStep ctx i st with
      | none => rw [hstep] at h; exact absurd h (by simp)
      | some o =>
        rw [hstep] at h
        cases o with
        | none =>
          simp only [Option.some_inj] at h
          rw [← h] at hm
          simp at hm
        | some r =>
          obtain ⟨t0, st'⟩ := r
          replace h : orchLoop ctx (List.range' (i + 1) k) st' ([] ++ [t0]) = some out := h
          rw [orchLoop_append] at h
          cases hrest : orchLoop ctx (List.range' (i + 1) k) st' [] with
          | none => rw [hrest] at h; exact absurd h (by simp)
          | some out' =>
            rw [hrest] at h
            simp only [Option.map_some', Option.some_inj] at h
            have hm' : m ≤ out'.length := by
              rw [← h] at hm
              simpa using hm
            have := ih k (i + 1) st' out' hrest hm'
            rw [← stslide_shift hstep m] at this
            have harith : i + 1 + m = i + (m + 1) := by omega
            rw [harith] at this
            have hk : k - m = k + 1 - (m + 1) := by omega
            rw [hk] at this
            rw [← h]
            simpa using this

/-! ### Support lemmas for the Cost Model claims -/

theorem alignedGet_some {w : List (ℕ × V)} (hw : ∀ p ∈ w, p.2.isSome = true) (a : ℕ) :
    alignedGet w a = some (qweight w a) := by
  rw [alignedGet, qweight]
  cases hl : lookupV w a with
  | none => rfl
  | some v =>
    rw [lookupV] at hl
    cases hf : w.find? (fun p => p.1 == a) with
    | none => rw [hf] at hl; exact absurd hl (by simp)
    | some p =>
      rw [hf] at hl
      simp only [Option.map_some', Option.some_inj] at hl
      have hp : p ∈ w := List.mem_of_find?_eq_some hf
      obtain ⟨q, hq⟩ := Option.isSome_iff_exists.mp (hw p hp)
      rw [← hl, hq]
      rfl

theorem filterMap_somes {α : Type} (l : List α) (f : α → ℚ) :
    (l.map (fun a => some (f a))).filterMap id = l.map f := by
  induction l with
  | nil => rfl
  | cons x xs ih =>
    show f x :: (xs.map (fun a => some (f a))).filterMap id = f x :: xs.map f
    rw [ih]

theorem psum_somes {α : Type} (l : List α) (f : α → ℚ) :
    psum (l.map (fun a => some (f a))) = some ((l.map f).sum) := by
  rw [psum, filterMap_somes]

theorem alignKeys_nodup {cur prev : List (ℕ × V)} (hc : (cur.map (fun p => p.1)).Nodup)
    (hp : (prev.map (fun p => p.1)).Nodup) : (alignKeys cur prev).Nodup := by
  rw [alignKeys]
  refine List.Nodup.append hc (hp.filter _) ?_
  intro a hac haf
  rw [List.mem_filter, decide_eq_true_eq] at haf
  exact haf.2 hac

theorem alignKeys_toFinset (cur prev : List (ℕ × V)) :
    (alignKeys cur prev).toFinset =
      (cur.map (fun p => p.1)).toFinset ∪ (prev.map (fun p => p.1)).toFinset := by
  ext a
  simp only [alignKeys, List.toFinset_append, Finset.mem_union, List.mem_toFinset,
    List.mem_filter, decide_eq_true_eq]
  constructor
  · rintro (h | ⟨h, _⟩)
    · exact Or.inl h
    · exact Or.inr h
  · rintro (h | h)
    · exact Or.inl h
    · by_cases hc : a ∈ cur.map (fun p => p.1)
      · exact Or.inl hc
      · exact Or.inr ⟨h, hc⟩

theorem sum_over_nodup {l : List ℕ} (hl : l.Nodup) (f : ℕ → ℚ) :
    ∑ a ∈ l.toFinset, f a = (l.map f).sum := by
  induction l with
  | nil => simp
  | cons x xs ih =>
    rw [List.toFinset_cons, Finset.sum_insert (by simpa using (List.nodup_cons.mp hl).1)]
    simp [ih (List.nodup_cons.mp hl).2]

theorem neg_sum_abs {l : List V} (h : ∀ x ∈ l, vneg x = true) :
    |(l.filterMap id).sum| = ((l.filterMap id).map (fun q => |q|)).sum ∧
    (l ≠ [] → (l.filterMap id).sum < 0) := by
  induction l with
  | nil => simp
  | cons x xs ih =>
    have hx := h x (by simp)
    cases x with
    | none => simp [vneg] at hx
    | some q =>
      simp only [vneg, decide_eq_true_eq] at hx
      obtain ⟨ih1, ih2⟩ := ih (fun y hy => h y (by simp [hy]))
      simp only [List.filterMap_cons, id, List.map_cons, List.sum_cons]
      by_cases hxs : xs = []
      · subst hxs
        refine ⟨by simp [abs_of_neg hx], fun _ => by simpa using hx⟩
      · have hs := ih2 hxs
        have h1 : q + (xs.filterMap id).sum < 0 := by linarith
        refine ⟨?_, fun _ => h1⟩
        rw [abs_of_neg h1, abs_of_neg hx, ← ih1, abs_of_neg hs]
        ring

/-! ### The claims -/

/-- C5: in `get_costs`, the rebalance-cost component is `0` directly
(for any weight inputs, aligned or not) whenever `trans_cost <= 0`;
otherwise, for well-formed weight vectors (finite entries, no duplicate
labels), it aligns the two vectors over the union of their asset
identifiers with missing entries treated as weight 0 and returns the sum
of absolute weight differences times the cost rate, rounded to 6
decimal places. -/
theorem c5_rebalance_cost (tc : ℚ) (cur prev : List (ℕ × V)) (annual_kd : ℚ) :
    (tc ≤ 0 → (get_costs tc cur prev annual_kd).1 = some 0) ∧
    (0 < tc →
      (cur.map (fun p => p.1)).Nodup → (prev.map (fun p => p.1)).Nodup →
      (∀ p ∈ cur, p.2.isSome = true) → (∀ p ∈ prev, p.2.isSome = true) →
      (get_costs tc cur prev annual_kd).1 = some (roundTo 6 (turnover cur prev * tc))) := by
  constructor
  · intro htc
    simp [get_costs, htc]
  · intro htc hnc hnp hsc hsp
    have hns : ¬ tc ≤ 0 := not_le.mpr htc
    simp only [get_costs, hns, if_false]
    show vround 6 (psum (((alignKeys cur prev).map (fun a =>
        vabs (vsub (alignedGet cur a) (alignedGet prev a)))).map
        (fun d => vmul d (some tc)))) = some (roundTo 6 (turnover cur prev * tc))
    rw [List.map_map]
    have hmap : (alignKeys cur prev).map ((fun d => vmul d (some tc)) ∘ (fun a =>
        vabs (vsub (alignedGet cur a) (alignedGet prev a)))) =
        (alignKeys cur prev).map (fun a => some (|qweight cur a - qweight prev a| * tc)) := by
      apply List.map_congr_left
      intro a _
      show vmul (vabs (vsub (alignedGet cur a) (alignedGet prev a))) (some tc) = _
      rw [alignedGet_some hsc, alignedGet_some hsp]
      rfl
    rw [hmap, psum_somes]
    have hsum : ((alignKeys cur prev).map
        (fun a => |qweight cur a - qweight prev a| * tc)).sum = turnover cur prev * tc := by
      rw [← sum_over_nodup (alignKeys_nodup hnc hnp), alignKeys_toFinset, turnover,
        Finset.sum_mul]
    rw [hsum]
    rfl

/-- C5 witness: a 100% reallocation from asset 1 to asset 2 at a 1%
transaction cost gives turnover 2 and a cost fraction of 0.02. -/
theorem c5_witness :
    (get_costs (1/100) [(2, some 1)] [(1, some 1)] 0).1 =
      some (roundTo 6 (turnover [(2, some 1)] [(1, some 1)] * (1/100))) :=
  (c5_rebalance_cost (1/100) [(2, some 1)] [(1, some 1)] 0).2 (by norm_num)
    (by decide) (by decide) (by decide) (by decide)

/-- C6: `calculate_leverage_costs` at the default 360-day year returns 0
when the annual rate is not positive or no weight is negative; when the
annual rate is positive and some weight is negative it returns
`(annual_rate / 360) * exposure`, where the exposure is the sum of the
absolute values of the negative weights, and this value is strictly
positive. -/
theorem c6_leverage_cost (annual : ℚ) (w : List (ℕ × V)) :
    (annual ≤ 0 → calculate_leverage_costs annual w 360 = some 0) ∧
    ((∀ p ∈ w, vneg p.2 = false) → calculate_leverage_costs annual w 360 = some 0) ∧
    (0 < annual → (∃ p ∈ w, vneg p.2 = true) →
      calculate_leverage_costs annual w 360 = some (annual / 360 * short_exposure w) ∧
      0 < annual / 360 * short_exposure w) := by
  refine ⟨?_, ?_, ?_⟩
  · intro h
    simp [calculate_leverage_costs, not_lt.mpr h]
  · intro h
    by_cases ha : 0 < annual
    · have hfil : w.filter (fun p => vneg p.2) = [] := by
        rw [List.filter_eq_nil_iff]
        intro p hp
        simp [h p hp]
      simp [calculate_leverage_costs, ha, hfil, psum, vabs, vpos]
    · simp [calculate_leverage_costs, ha]
  · intro ha hex
    obtain ⟨p0, hp0, hneg0⟩ := hex
    have hall : ∀ x ∈ (w.filter (fun p => vneg p.2)).map (fun p => p.2), vneg x = true := by
      intro x hx
      rw [List.mem_map] at hx
      obtain ⟨p, hp, rfl⟩ := hx
      exact (List.mem_filter.mp hp).2
    have hne : (w.filter (fun p => vneg p.2)).map (fun p => p.2) ≠ [] := by
      simp only [ne_eq, List.map_eq_nil_iff]
      intro hnil
      have : p0 ∈ w.filter (fun p => vneg p.2) := List.mem_filter.mpr ⟨hp0, hneg0⟩
      rw [hnil] at this
      exact absurd this (List.not_mem_nil p0)
    obtain ⟨habs, hlt⟩ := neg_sum_abs hall
    have hssum := hlt hne
    have hexp : short_exposure w =
        |((((w.filter (fun p => vneg p.2)).map (fun p => p.2)).filterMap id)).sum| := by
      rw [short_exposure, habs]
    have hpos : 0 < short_exposure w := by
      rw [hexp]
      exact abs_pos.mpr (ne_of_lt hssum)
    have hres : calculate_leverage_costs annual w 360 = some (annual / 360 * short_exposure w) := by
      rw [calculate_leverage_costs, if_pos ha]
      simp only [psum, vabs, vpos]
      rw [if_pos]
      · rw [vmul]
        congr 1
        rw [← hexp]
      · rw [← hexp] at *
        simpa using hpos
    exact ⟨hres, mul_pos (by positivity) hpos⟩

/-- C6 witness: a 180% annual rate on the weight vector `{A: 2, B: -1}`
(exposure 1) yields the strictly positive daily cost 0.5. -/
theorem c6_witness :
    calculate_leverage_costs 180 [(0, some 2), (1, some (-1))] 360 =
      some (180 / 360 * short_exposure [(0, some 2), (1, some (-1))]) ∧
    0 < (180 : ℚ) / 360 * short_exposure [(0, some 2), (1, some (-1))] :=
  (c6_leverage_cost 180 [(0, some 2), (1, some (-1))]).2.2 (by norm_num) (by decide)

/-- C7: `get_net_balance` returns `round(balance * (1 - cost), 2)` for a
positive balance (in particular `round(balance, 2)` at zero cost) and
exactly 0 for a balance that is not positive, whatever the cost. -/
theorem c7_net_of_cost (b c : ℚ) :
    (0 < b → get_net_balance (some b) (some c) = some (roundTo 2 (b * (1 - c))) ∧
      get_net_balance (some b) (some 0) = some (roundTo 2 b)) ∧
    (b ≤ 0 → ∀ c' : V, get_net_balance (some b) c' = some 0) := by
  constructor
  · intro hb
    constructor
    · simp [get_net_balance, vpos, hb, vround, vmul, vsub]
    · simp [get_net_balance, vpos, hb, vround, vmul, vsub]
  · intro hb c'
    simp [get_net_balance, vpos, not_lt.mpr hb]

/-- C7 witness: a balance of 550 at a 2% cost nets to
`round(550 * 0.98, 2)`, and at zero cost to `round(550, 2)`. -/
theorem c7_witness :
    get_net_balance (some 550) (some (2/100)) = some (roundTo 2 (550 * (1 - 2/100))) ∧
    get_net_balance (some 550) (some 0) = some (roundTo 2 550) :=
  (c7_net_of_cost 550 (2/100)).1 (by norm_num)

/-- C8: when every weight entry is missing, the period is a no-op hold:
the trajectory is the constant starting balance over every date of the
returns slice and the ending weights are 0 for every asset. -/
theorem c8_all_nan_noop (w : List (ℕ × V)) (b : V) (rets : List (List V)) (kd : V)
    (hw : ∀ p ∈ w, p.2 = none) :
    port_balance_calc w b rets kd =
      some (List.replicate rets.length b, w.map (fun p => (p.1, some 0))) ∧
    (∀ t fw, port_balance_calc w b rets kd = some (t, fw) →
      t.length = rets.length ∧ (∀ y ∈ t, y = b) ∧ ∀ p ∈ fw, p.2 = some 0) := by
  refine ⟨port_degenerate_eq hw, ?_⟩
  intro t fw h
  rw [port_degenerate_eq hw] at h
  simp only [Option.some_inj, Prod.mk.injEq] at h
  obtain ⟨h1, h2⟩ := h
  refine ⟨by rw [← h1]; simp, ?_, ?_⟩
  · intro y hy
    rw [← h1] at hy
    exact List.eq_of_mem_replicate hy
  · intro p hp
    rw [← h2, List.mem_map] at hp
    obtain ⟨q, _, rfl⟩ := hp
    rfl

/-- C8 witness: a single all-NaN weight over one return date holds the
net balance 5 and reports zero ending weight. -/
theorem c8_witness :
    port_balance_calc [((0 : ℕ), (none : V))] (some 5) [[some 1]] (some 0) =
      some (List.replicate ([[some (1 : ℚ)]] : List (List V)).length (some 5),
        ([((0 : ℕ), (none : V))]).map (fun p => (p.1, some 0))) :=
  (c8_all_nan_noop [(0, none)] (some 5) [[some 1]] (some 0) (by decide)).1

/-- C10: the Balance Depletion Guard. The boolean it returns is true
exactly when no value is `<= 0`; in that case the series is returned
completely unchanged.  Otherwise the series is zeroed from the first
value `<= 0` onward (keeping its length).  The mutated series is what the
simulator keeps computing with: whenever the leverage branch is not taken
in the normal path, the trajectory the simulator returns is exactly the
guard's output series. -/
theorem c10_guard_frame (s : List V) :
    ((check_negative_balance s).2 = true ↔ ∀ x ∈ s, vle0 x = false) ∧
    ((∀ x ∈ s, vle0 x = false) → check_negative_balance s = (s, true)) ∧
    (check_negative_balance s).1.length = s.length ∧
    (∀ i x, s[i]? = some x → vle0 x = true →
      (∀ k x', k < i → s[k]? = some x' → vle0 x' = false) →
      (check_negative_balance s).1 = s.take i ++ List.replicate (s.length - i) (some 0)) ∧
    (∀ (w : List (ℕ × V)) (b kd : V) (rets : List (List V)) (t : List V) (fw : List (ℕ × V)),
      ¬ (∀ p ∈ w, p.2 = none) →
      port_balance_calc w b rets kd = some (t, fw) →
      (vpos kd && (check_negative_balance (balance_over_time w b rets)).2) = false →
      t = (check_negative_balance (balance_over_time w b rets)).1) := by
  refine ⟨?_, ?_, cnb_length s, ?_, ?_⟩
  · constructor
    · exact cnb_flag_true_mem
    · intro h
      rw [cnb_flag, List.all_eq_true]
      intro x hx
      simp [h x hx]
  · intro h
    have h1 := cnb_fst_of_pos h
    have h2 : (check_negative_balance s).2 = true := by
      rw [cnb_flag, List.all_eq_true]
      intro x hx
      simp [h x hx]
    rw [Prod.ext_iff]
    exact ⟨h1, h2⟩
  · intro i
    induction s generalizing i with
    | nil => intro x hx; simp at hx
    | cons y ys ih =>
      intro x hx hxle hbefore
      cases i with
      | zero =>
        simp only [List.getElem?_cons_zero, Option.some_inj] at hx
        rw [← hx] at hxle
        simp only [check_negative_balance, hxle, if_true]
        simp
      | succ k =>
        have hy : vle0 y = false := hbefore 0 y (by omega) (by simp)
        simp only [List.getElem?_cons_succ] at hx
        simp only [check_negative_balance, hy, Bool.false_eq_true, if_false]
        have hrec := ih k x hx hxle
          (fun k' x' hk' hx' => hbefore (k' + 1) x' (by omega) (by simpa using hx'))
        rw [hrec]
        simp only [List.take_succ_cons, List.length_cons, List.cons_append]
        have harith : ys.length + 1 - (k + 1) = ys.length - k := by omega
        rw [harith]
  · intro w b kd rets t fw hnorm h hbr
    rcases port_cases h with ⟨_, ht, _, _, _⟩ | ⟨hall, _, _⟩
    · rw [ht, if_neg (by rw [hbr]; exact Bool.false_ne_true)]
    · exact absurd hall hnorm

/-- C10 witness: on an entirely positive series the guard reports true
and leaves the series unchanged; the zeroing branch is exercised by the
indexed clause at the first nonpositive position of `[3, 0, 5]`. -/
theorem c10_witness :
    check_negative_balance [some 3, some 5] = ([some 3, some 5], true) ∧
    (check_negative_balance [some 3, some 0, some 5]).1 =
      [some 3, some 0, some 5].take 1 ++ List.replicate (3 - 1) (some 0) :=
  ⟨(c10_guard_frame [some 3, some 5]).2.1 (by decide),
   (c10_guard_frame [some 3, some 0, some 5]).2.2.2.1 1 (some 0) (by decide) (by decide)
     (fun k x' hk hx' => by
       have hk0 : k = 0 := by omega
       subst hk0
       simp only [List.getElem?_cons_zero, Option.some_inj] at hx'
       rw [← hx']
       decide)⟩

/-- C2: in the normal path of the Period Balance Simulator, when the
daily leverage cost is positive and the guard reports the period never
ruined, the returned trajectory is recomputed as the percent change of
the original trajectory, minus the flat daily leverage cost at every
date, then log(1+x), cumulative sum, exponentiation (here in exponential
representation), scaled by the period's starting balance; in every other
case the trajectory is returned exactly as the guard produced it. -/
theorem c2_leverage_branch (w : List (ℕ × V)) (b kd : V) (rets : List (List V))
    (t : List V) (fw : List (ℕ × V))
    (hnorm : ¬ (∀ p ∈ w, p.2 = none))
    (h : port_balance_calc w b rets kd = some (t, fw)) :
    (vpos kd = true → (check_negative_balance (balance_over_time w b rets)).2 = true →
      t = (cumsum_skipna 1 (((pct_change (balance_over_time w b rets)).map
          (fun x => vsub x kd)).map log1p)).map (fun e => vmul b e)) ∧
    ((vpos kd = false ∨ (check_negative_balance (balance_over_time w b rets)).2 = false) →
      t = (check_negative_balance (balance_over_time w b rets)).1) := by
  rcases port_cases h with ⟨_, ht, _, _, _⟩ | ⟨hall, _, _⟩
  · constructor
    · intro hkd hflag
      rw [ht, if_pos (by rw [hkd, hflag]; rfl), lev_traj,
        cnb_fst_of_pos (cnb_flag_true_mem hflag), List.map_map]
      rfl
    · intro hor
      rw [ht, if_neg]
      intro hand
      rw [Bool.and_eq_true] at hand
      rcases hor with h1 | h1
      · rw [hand.1] at h1
        cases h1
      · rw [hand.2] at h1
        cases h1
  · exact absurd hall hnorm

/-- C2 witness: one asset at weight 1, balance 1000, one +10% return and a
1% daily leverage cost: the recomputed trajectory is `[NaN]`, matching the
pipeline applied to the one-point balance path `[1100]`. -/
theorem c2_witness :
    ([none] : List V) = (cumsum_skipna 1 (((pct_change (balance_over_time [(0, some 1)]
        (some 1000) [[some (1/10)]])).map (fun x => vsub x (some (1/100)))).map log1p)).map
      (fun e => vmul (some 1000) e) :=
  (c2_leverage_branch [(0, some 1)] (some 1000) (some (1/100)) [[some (1/10)]] [none]
    [(0, none)] (by decide) (by decide)).1 (by decide) (by decide)

/-- C9: whenever the leverage branch is taken, the first entry of the
recomputed trajectory is NaN — the percent change of the trajectory is
undefined at its first date, so the daily leverage drag is charged only
from the second date on, and the first date's balance is not a real
number in the output. -/
theorem c9_leverage_first_nan (w : List (ℕ × V)) (b kd : V) (rets : List (List V))
    (t : List V) (fw : List (ℕ × V))
    (hnorm : ¬ (∀ p ∈ w, p.2 = none)) (hkd : vpos kd = true)
    (hflag : (check_negative_balance (balance_over_time w b rets)).2 = true)
    (h : port_balance_calc w b rets kd = some (t, fw)) :
    t.head? = some none ∧
    t = none :: (cumsum_skipna 1 ((pct_go ((balance_over_time w b rets).headD none)
        (balance_over_time w b rets).tail).map (fun x => log1p (vsub x kd)))).map
      (fun e => vmul b e) := by
  rcases port_cases h with ⟨_, ht, fb, hlast, _⟩ | ⟨hall, _, _⟩
  · have hs := cnb_fst_of_pos (cnb_flag_true_mem hflag)
    have hbr : (vpos kd && (check_negative_balance (balance_over_time w b rets)).2) = true := by
      rw [hkd, hflag]
      rfl
    rw [if_pos hbr, hs] at ht
    rcases hse : balance_over_time w b rets with _ | ⟨s0, srest⟩
    · rw [hse] at ht
      have hte : t = [] := by rw [ht]; rfl
      rw [hte] at hlast
      simp at hlast
    · rw [hse] at ht
      have hvb : vmul b none = none := by cases b <;> rfl
      have ht' : t = none :: (cumsum_skipna 1 ((pct_go s0 srest).map
          (fun x => log1p (vsub x kd)))).map (fun e => vmul b e) := by
        rw [ht]
        show vmul b none :: _ = none :: _
        rw [hvb]
      exact ⟨by rw [ht']; rfl, ht'⟩
  · exact absurd hall hnorm

/-- C9 witness: a two-date period with +10% and +20% returns and a 10%
daily leverage cost: the trajectory base is `[1100, 1320]` and the
recomputed trajectory is `[NaN, 1100]` — the drag applies only to the
second date, and the first value is not a real number. -/
theorem c9_witness :
    ([none, some 1100] : List V).head? = some none ∧
    ([none, some 1100] : List V) =
      none :: (cumsum_skipna 1 ((pct_go
          ((balance_over_time [(0, some 1)] (some 1000)
            [[some (1/10)], [some (2/10)]]).headD none)
          (balance_over_time [(0, some 1)] (some 1000)
            [[some (1/10)], [some (2/10)]]).tail).map
          (fun x => log1p (vsub x (some (1/10)))))).map (fun e => vmul (some 1000) e) :=
  c9_leverage_first_nan [(0, some 1)] (some 1000) (some (1/10)) [[some (1/10)], [some (2/10)]]
    [none, some 1100] [(0, some (6/5))] (by decide) (by decide) (by decide) (by decide)

/-- C3: in the normal path, the ending weights are the last row of the
NAV table divided elementwise by the final trajectory value, with no
guard for a zero denominator: when the final value is exactly 0 every
ending weight is undefined (non-finite).  The orchestrator stores this
vector unchanged in its state and hands it, as the previous-weights
input, to the Cost Model of the next period. -/
theorem c3_ending_weights (w : List (ℕ × V)) (b kd : V) (rets : List (List V))
    (t : List V) (fw : List (ℕ × V))
    (hnorm : ¬ (∀ p ∈ w, p.2 = none))
    (h : port_balance_calc w b rets kd = some (t, fw)) :
    (∃ fb, t.getLast? = some fb ∧
      fw = (w.zip (nav_last_row w b rets)).map (fun p => (p.1.1, vdiv p.2 fb)) ∧
      (fb = some 0 → ∀ p ∈ fw, p.2 = none)) ∧
    (∀ (ctx : OrchCtx) (i : ℕ) (st : OrchSt) (t' : List V) (st' : OrchSt),
      orchStep ctx i st = some (some (t', st')) →
      ∃ lw, port_balance_calc (step_pw ctx i) (step_net ctx i st) (step_rets ctx i st)
          (step_costs ctx i st).2 = some (t', lw) ∧ st'.last_weights = lw ∧
        step_costs ctx (i + 1) st' =
          get_costs ctx.trans_cost (step_pw ctx (i + 1)) lw ctx.annual_kd) := by
  constructor
  · rcases port_cases h with ⟨_, _, fb, hlast, hfw⟩ | ⟨hall, _, _⟩
    · refine ⟨fb, hlast, hfw, ?_⟩
      intro hfb p hp
      rw [hfw, List.mem_map] at hp
      obtain ⟨q, _, rfl⟩ := hp
      rw [hfb]
      show vdiv q.2 (some 0) = none
      cases q.2 with
      | none => rfl
      | some v => simp [vdiv]
    · exact absurd hall hnorm
  · intro ctx i st t' st' hstep
    obtain ⟨lw, hport, _, hlw, _⟩ := orchBody_some (orchStep_some hstep)
    refine ⟨lw, hport, hlw, ?_⟩
    rw [step_costs, hlw]

/-- C3 witness: the total-wipeout period (single asset, return -100%)
ends at balance 0; its NAV row is divided by 0, the ending weight is NaN,
and any orchestrator step hands its stored ending weights to the next
period's cost computation. -/
theorem c3_witness :
    (∃ fb, ([some 0] : List V).getLast? = some fb ∧
      ([((0 : ℕ), (none : V))] : List (ℕ × V)) =
        (([((0 : ℕ), (some 1 : V))]).zip
          (nav_last_row [(0, some 1)] (some 1000) [[some (-1)]])).map
          (fun p => (p.1.1, vdiv p.2 fb)) ∧
      (fb = some 0 → ∀ p ∈ ([((0 : ℕ), (none : V))] : List (ℕ × V)), p.2 = none)) ∧
    (∀ (ctx : OrchCtx) (i : ℕ) (st : OrchSt) (t' : List V) (st' : OrchSt),
      orchStep ctx i st = some (some (t', st')) →
      ∃ lw, port_balance_calc (step_pw ctx i) (step_net ctx i st) (step_rets ctx i st)
          (step_costs ctx i st).2 = some (t', lw) ∧ st'.last_weights = lw ∧
        step_costs ctx (i + 1) st' =
          get_costs ctx.trans_cost (step_pw ctx (i + 1)) lw ctx.annual_kd) :=
  c3_ending_weights [(0, some 1)] (some 1000) (some 0) [[some (-1)]] [some 0] [(0, none)]
    (by decide) (by decide)

/-- C4: `get_balance` is a fold over the rebalance-date sequence.  The
state starts at `(starting_balance, all-zero weights over the price
columns, first rebalance date)`; after each completed period `m`, the
`m`-th entry of the result (keys are recorded in insertion = chronological
order, modelled by list position) is that period's trajectory, and the
state becomes `(last trajectory value, ending weights, period end date)`
— exactly the inputs `orchStep` consumes for period `m + 1`. -/
theorem c4_orchestrator_fold (sb : ℚ) (ctx : OrchCtx) (res : List (List V))
    (h : get_balance sb ctx = some res) :
    ∃ st : ℕ → OrchSt,
      st 0 = ⟨some sb, ctx.price_assets.map (fun a => (a, some 0)),
        ctx.rebalance_dates.headD 0⟩ ∧
      ∀ m, m < res.length →
        orchStep ctx m (st m) = some (some (res.getD m [], st (m + 1))) ∧
        (st (m + 1)).balance = (res.getD m []).getLast?.getD none ∧
        (st (m + 1)).returns_start_date = step_date_to ctx m ∧
        ∃ fw, port_balance_calc (step_pw ctx m) (step_net ctx m (st m))
            (step_rets ctx m (st m)) (step_costs ctx m (st m)).2 =
            some (res.getD m [], fw) ∧
          (st (m + 1)).last_weights = fw := by
  rw [get_balance] at h
  rcases hrd : ctx.rebalance_dates with _ | ⟨d0, ds⟩
  · rw [hrd] at h
    exact absurd h (by simp)
  · rw [hrd] at h
    replace h : orchLoop ctx (List.range (d0 :: ds).length)
        ⟨some sb, ctx.price_assets.map (fun a => (a, some 0)), d0⟩ [] = some res := h
    rw [List.range_eq_range'] at h
    refine ⟨stslide ctx ⟨some sb, ctx.price_assets.map (fun a => (a, some 0)), d0⟩ 0, ?_, ?_⟩
    · rfl
    · intro m hm
      have hstep := run_steps ctx _ 0
        ⟨some sb, ctx.price_assets.map (fun a => (a, some 0)), d0⟩ res h m hm
      rw [Nat.zero_add] at hstep
      obtain ⟨fw, hport, hlast, hlw, hdate⟩ := orchBody_some (orchStep_some hstep)
      refine ⟨hstep, ?_, hdate, fw, hport, hlw⟩
      rw [hlast]
      rfl

/-- C4 witness: the one-period run from 100 with a single +10% step. -/
theorem c4_witness :
    ∃ st : ℕ → OrchSt,
      st 0 = ⟨some 100, wctx.price_assets.map (fun a => (a, some 0)),
        wctx.rebalance_dates.headD 0⟩ ∧
      ∀ m, m < ([[some 110]] : List (List V)).length →
        orchStep wctx m (st m) =
          some (some (([[some 110]] : List (List V)).getD m [], st (m + 1))) ∧
        (st (m + 1)).balance =
          (([[some 110]] : List (List V)).getD m []).getLast?.getD none ∧
        (st (m + 1)).returns_start_date = step_date_to wctx m ∧
        ∃ fw, port_balance_calc (step_pw wctx m) (step_net wctx m (st m))
            (step_rets wctx m (st m)) (step_costs wctx m (st m)).2 =
            some (([[some 110]] : List (List V)).getD m [], fw) ∧
          (st (m + 1)).last_weights = fw :=
  c4_orchestrator_fold 100 wctx [[some 110]] (by decide)

/-- C1 counterexample: with a short position, a 180% annual cost of debt
and the balance path [100, 50, 20], the leverage adjustment produces the
recorded trajectory [NaN, 0.0, NaN]: the value at position 1 is `<= 0`
yet the value at position 2 is NaN, not exactly 0 — so the claim as
stated (every subsequent value in that trajectory is exactly 0) fails. -/
theorem c1_counterexample :
    get_balance 100 c1ctx = some [[none, some 0, none]] ∧
    ¬ (∀ res, get_balance 100 c1ctx = some res →
        ∀ t ∈ res, ∀ (j j' : ℕ) (x : V), j < j' → j' < t.length →
          t[j]? = some x → vle0 x = true → t[j']? = some (some 0)) := by
  constructor
  · decide
  · intro hcl
    have h2 := hcl [[none, some 0, none]] (by decide) [none, some 0, none] (by decide)
      1 2 (some 0) (by decide) (by decide) (by decide) (by decide)
    exact absurd h2 (by decide)

/-- C1 amended: in any successful run, once a value of a period's
recorded trajectory is `<= 0`, (a) every value of every later period's
trajectory is exactly 0, and (b) every subsequent value in that period's
trajectory is `<= 0` or undefined (NaN); (c) it is exactly 0 whenever
the period took the normal path and the leverage adjustment was not
applied, i.e. the trajectory is the ruin guard's output. -/
theorem c1_ruin_amended (sb : ℚ) (ctx : OrchCtx) (res : List (List V))
    (h : get_balance sb ctx = some res) :
    (∀ (i : ℕ) (t : List V), res[i]? = some t →
      (∃ (j : ℕ) (x : V), t[j]? = some x ∧ vle0 x = true) →
      ∀ (k : ℕ) (t' : List V), i < k → res[k]? = some t' → ∀ y ∈ t', y = some 0) ∧
    (∀ t ∈ res, ∀ (j j' : ℕ) (x y : V), j < j' →
      t[j]? = some x → vle0 x = true → t[j']? = some y → vle0 y = true ∨ y = none) ∧
    (∀ (w : List (ℕ × V)) (b kd : V) (rets : List (List V)) (t : List V)
        (fw : List (ℕ × V)),
      ¬ (∀ p ∈ w, p.2 = none) → port_balance_calc w b rets kd = some (t, fw) →
      (vpos kd && (check_negative_balance (balance_over_time w b rets)).2) = false →
      ∀ (j j' : ℕ) (x : V), j < j' → j' < t.length →
        t[j]? = some x → vle0 x = true → t[j']? = some (some 0)) := by
  rw [get_balance] at h
  rcases hrd : ctx.rebalance_dates with _ | ⟨d0, ds⟩
  · rw [hrd] at h
    exact absurd h (by simp)
  · rw [hrd] at h
    replace h : orchLoop ctx (List.range (d0 :: ds).length)
        ⟨some sb, ctx.price_assets.map (fun a => (a, some 0)), d0⟩ [] = some res := h
    rw [List.range_eq_range'] at h
    refine ⟨?_, ?_, ?_⟩
    · intro i t hit hex k t' hik hkt' y hy
      obtain ⟨j, x, hj, hx⟩ := hex
      have him : i < res.length := (List.getElem?_eq_some_iff.mp hit).1
      have hkm : k < res.length := (List.getElem?_eq_some_iff.mp hkt').1
      have hstep := run_steps ctx _ 0
        ⟨some sb, ctx.price_assets.map (fun a => (a, some 0)), d0⟩ res h i him
      rw [Nat.zero_add] at hstep
      obtain ⟨lw, hport, hlast, _, _⟩ := orchBody_some (orchStep_some hstep)
      have hgd : res.getD i [] = t := by
        rw [List.getD_eq_getD_get?, List.get?_eq_getElem?, hit]
        rfl
      rw [hgd] at hport hlast
      obtain ⟨fb, hfb, hfbpos⟩ := port_last_nonpos hport hj hx
      rw [hfb] at hlast
      have hbal : vpos (stslide ctx
          ⟨some sb, ctx.price_assets.map (fun a => (a, some 0)), d0⟩ 0 (i + 1)).balance
          = false := by
        have hfb2 : fb = (stslide ctx
            ⟨some sb, ctx.price_assets.map (fun a => (a, some 0)), d0⟩ 0 (i + 1)).balance := by
          injection hlast
        rw [← hfb2]
        exact hfbpos
      have hdrop := run_drop ctx (i + 1) _ 0
        ⟨some sb, ctx.price_assets.map (fun a => (a, some 0)), d0⟩ res h (by omega)
      rw [Nat.zero_add] at hdrop
      have hzero := run_zero_tail ctx _ _ _ hbal hdrop
      have ht'mem : t' ∈ res.drop (i + 1) := by
        have hidx : (res.drop (i + 1))[k - (i + 1)]? = some t' := by
          rw [List.getElem?_drop]
          have harith : i + 1 + (k - (i + 1)) = k := by omega
          rw [harith]
          exact hkt'
        exact List.getElem?_mem hidx
      exact hzero t' ht'mem y hy
    · intro t ht j j' x y hjj' hj hx hj'
      obtain ⟨m, hm⟩ := List.mem_iff_getElem?.mp ht
      have hml : m < res.length := (List.getElem?_eq_some_iff.mp hm).1
      have hstep := run_steps ctx _ 0
        ⟨some sb, ctx.price_assets.map (fun a => (a, some 0)), d0⟩ res h m hml
      rw [Nat.zero_add] at hstep
      obtain ⟨lw, hport, _, _, _⟩ := orchBody_some (orchStep_some hstep)
      have hgd : res.getD m [] = t := by
        rw [List.getD_eq_getD_get?, List.get?_eq_getElem?, hm]
        rfl
      rw [hgd] at hport
      exact port_after_nonpos hport hjj' hj hx hj'
    · intro w b kd rets t fw hnorm hp hbr j j' x hjj' hlen hj hx
      rcases port_cases hp with ⟨_, ht, _, _, _⟩ | ⟨hall, _, _⟩
      · have ht' : t = (check_negative_balance (balance_over_time w b rets)).1 := by
          rw [ht, if_neg]
          rw [hbr]
          exact Bool.false_ne_true
        rw [ht'] at hj hlen ⊢
        have hlen' : j' < (balance_over_time w b rets).length := by
          rw [cnb_length] at hlen
          exact hlen
        exact cnb_after_nonpos hj hx j' hjj' hlen'
      · exact absurd hall hnorm

/-- C1 witness for the amended statement, at the one-period +10% run. -/
theorem c1_witness :
    (∀ (i : ℕ) (t : List V), ([[some 110]] : List (List V))[i]? = some t →
      (∃ (j : ℕ) (x : V), t[j]? = some x ∧ vle0 x = true) →
      ∀ (k : ℕ) (t' : List V), i < k → ([[some 110]] : List (List V))[k]? = some t' →
        ∀ y ∈ t', y = some 0) ∧
    (∀ t ∈ ([[some 110]] : List (List V)), ∀ (j j' : ℕ) (x y : V), j < j' →
      t[j]? = some x → vle0 x = true → t[j']? = some y → vle0 y = true ∨ y = none) ∧
    (∀ (w : List (ℕ × V)) (b kd : V) (rets : List (List V)) (t : List V)
        (fw : List (ℕ × V)),
      ¬ (∀ p ∈ w, p.2 = none) → port_balance_calc w b rets kd = some (t, fw) →
      (vpos kd && (check_negative_balance (balance_over_time w b rets)).2) = false →
      ∀ (j j' : ℕ) (x : V), j < j' → j' < t.length →
        t[j]? = some x → vle0 x = true → t[j']? = some (some 0)) :=
  c1_ruin_amended 100 wctx [[some 110]] (by decide)
